import Mathlib

/-!
# Verification of the digiimg similarity-gated extraction pipeline

A shallow embedding of `src/main.go` (package `main`): the SSIM scorer, the
OCR text-extraction rule, the directory-watcher loop with its processed-file
set, and the image validator.  Strings are modelled as `List Char` where the
proofs are about their characters and as `String` where they are opaque
names; `float64` arithmetic is modelled exactly over `ℚ`; the external
services (filesystem, image decoding, OCR) are abstracted as explicit inputs
to the functions that call them.
-/

namespace Digiimg

/-! ## Go string primitives used by the source -/

/-- One step of `strings.Fields`: split on runs of whitespace, dropping empty
fields.  `acc` holds the current in-progress word, reversed. -/
def fieldsAux : List Char → List Char → List (List Char)
  | [], acc => if acc = [] then [] else [acc.reverse]
  | c :: rest, acc =>
    if c.isWhitespace then
      if acc = [] then fieldsAux rest []
      else acc.reverse :: fieldsAux rest []
    else fieldsAux rest (c :: acc)

/-- `strings.Fields(text)`: the whitespace-separated words of `text`.
(Go splits on Unicode whitespace; over the ASCII whitespace characters that
matter here the behaviours coincide.) -/
def goFields (s : List Char) : List (List Char) := fieldsAux s []

/-- `strings.Split(s, "\n")`: split on every newline; the result always has at
least one element (`Split("", "\n") = [""]`). -/
def splitNL : List Char → List (List Char)
  | [] => [[]]
  | c :: rest =>
    if c = '\n' then [] :: splitNL rest
    else
      match splitNL rest with
      | [] => [[c]]
      | w :: ws => (c :: w) :: ws

/-! ## Text extraction (`ExtractTextWithEnglishAndNumbers`, main.go:86-92)

The OCR call itself is external; given the raw text it returns, the function
takes the whitespace-separated words and returns the last word when there are
more than three words, and the empty string otherwise. -/

/-- The pure tail of `ExtractTextWithEnglishAndNumbers` (main.go:86-92),
applied to the raw text returned by the OCR client. -/
def ExtractTextWithEnglishAndNumbers (text : List Char) : List Char :=
  let words := goFields text
  if 3 < words.length then words.getLastD [] else []

/-- The emission step of the goroutine body (main.go:170-173): split the
extracted text on newlines; print the second line exactly when there are at
least two lines and the second has length 12. -/
def emittedCode (extractedText : List Char) : Option (List Char) :=
  let lines := splitNL extractedText
  if h : 1 < lines.length then
    let second := lines.get ⟨1, h⟩
    if second.length = 12 then some second else none
  else none

/-! ## SSIM (main.go:17-62)

The grayscale image fed to the pixel loop is modelled as the list of its
pixel values in scan order (the double loop over `y`,`x` visits every pixel
once; both images are read at the same coordinates, i.e. pointwise, which for
same-sized images is the `zip`).  `float64` arithmetic is modelled exactly
over `ℚ`: every constant and every intermediate value here is a short decimal
or a small integer sum, so the exact rational value and the `float64` value
agree far beyond the gaps this development exhibits. -/

/-- `C1 := 6.5025` of `SSIM` (main.go:22). -/
def ssimC1 : ℚ := 65025 / 10000

/-- `C2 := 58.5225` of `SSIM` (main.go:23). -/
def ssimC2 : ℚ := 585225 / 10000

/-- `SSIM` (main.go:17-62): accumulate `sumL += I1*I2`,
`sumC += I1^2 + I2^2`, `sumS += I1*I2` over all pixel pairs, then return
`((2*sumL + C1) / (sumC + C1)) * ((2*sumC + C2) / (sumS + C2))`. -/
def SSIM (img1 img2 : List ℚ) : ℚ :=
  let sums := (img1.zip img2).foldl
    (fun (s : ℚ × ℚ × ℚ) p =>
      (s.1 + p.1 * p.2, s.2.1 + (p.1 ^ 2 + p.2 ^ 2), s.2.2 + p.1 * p.2))
    (0, 0, 0)
  let L := (2 * sums.1 + ssimC1) / (sums.2.1 + ssimC1)
  let C := (2 * sums.2.1 + ssimC2) / (sums.2.2 + ssimC2)
  L * C

/-! ## Filesystem, image validation and comparison -/

/-- The distinguishable error values the Go code constructs. -/
inductive GoError where
  /-- `"image not found: %s"` (main.go:185). -/
  | notFound (path : String)
  /-- `"unable to read image: %s"` (main.go:190 and main.go:68). -/
  | unableToRead (path : String)
  /-- Any other error (OCR failure, directory-listing failure, ...). -/
  | other (msg : String)
deriving DecidableEq

/-- A decoded grayscale image: its pixel values in scan order. -/
abbrev Image : Type := List ℚ

/-- The filesystem and decoder as seen by the code: whether `os.Stat` finds
the path, and what `gocv.IMRead` decodes it to (`none` for an empty `Mat`). -/
structure FileSystem where
  statExists : String → Bool
  imread : String → Option Image

/-- `ValidateImage` (main.go:183-194): `notFound` when `os.Stat` reports the
path as missing; otherwise `unableToRead` when `IMRead` yields an empty
`Mat`; otherwise the decoded image. -/
def ValidateImage (fs : FileSystem) (imagePath : String) : Except GoError Image :=
  if fs.statExists imagePath = false then .error (.notFound imagePath)
  else
    match fs.imread imagePath with
    | none => .error (.unableToRead imagePath)
    | some img => .ok img

/-- `CompareImages` (main.go:95-121): validate both paths, resize both to the
fixed 300×300 canvas (the resize is the external `gocv.Resize`, abstracted as
a function argument), and score the pair with `SSIM`. -/
def CompareImages (fs : FileSystem) (resize : Image → Image)
    (image1Path image2Path : String) : Except GoError ℚ :=
  match ValidateImage fs image1Path with
  | .error e => .error e
  | .ok img1 =>
    match ValidateImage fs image2Path with
    | .error e => .error e
    | .ok img2 => .ok (SSIM (resize img1) (resize img2))

/-! ## The per-file task and the watcher loop -/

/-- The goroutine body dispatched per claimed file (main.go:155-175), given
the outcome of `CompareImages` and the outcome of the OCR step (the raw text
the OCR client returns, or its error).  Result: the emitted code, if any, and
whether the OCR step was invoked at all. -/
def processFile (compareResult : Except GoError ℚ)
    (ocrResult : Except GoError (List Char)) : Option (List Char) × Bool :=
  match compareResult with
  | .error _ => (none, false)
  | .ok similarity =>
    if 8 / 10 < similarity then
      match ocrResult with
      | .error _ => (none, true)
      | .ok text => (emittedCode (ExtractTextWithEnglishAndNumbers text), true)
    else (none, false)

/-- One entry of a directory listing, as `os.ReadDir` reports it. -/
structure DirEntry where
  name : String
  isDir : Bool
deriving DecidableEq

/-- `strings.ToLower` over the ASCII range (Go lowercases full Unicode; the
filenames at issue are ASCII, where the two coincide). -/
def lowerName (s : String) : String := ⟨s.data.map Char.toLower⟩

/-- `strings.HasSuffix(strings.ToLower(filename), ".jpg")` (main.go:148). -/
def hasJpgSuffix (s : String) : Bool := ".jpg".data.isSuffixOf (lowerName s).data

/-- The negation of the two skip conditions of the scan loop
(main.go:141-150): an entry is a candidate when it is not a directory and not
(already processed or lacking the `.jpg` suffix). -/
def isCandidate (processed : List String) (e : DirEntry) : Bool :=
  !e.isDir && !(processed.contains e.name || !hasJpgSuffix e.name)

/-- One scan iteration's entry loop (main.go:140-176) over the listing, with
the processed set threaded through: skip directories, skip entries already
processed or without the `.jpg` suffix, and otherwise mark the name processed
and dispatch it.  Returns the final processed set and the dispatched names in
order. -/
def scanStep : List DirEntry → List String → List String × List String
  | [], processed => (processed, [])
  | e :: rest, processed =>
    if e.isDir then scanStep rest processed
    else if processed.contains e.name || !hasJpgSuffix e.name then
      scanStep rest processed
    else
      let r := scanStep rest (e.name :: processed)
      (r.1, e.name :: r.2)

/-- A finite prefix of the perpetual scanning loop (main.go:133-179):
each element of `iters` is that iteration's `os.ReadDir` outcome.  On a
listing error the iteration logs and continues without scanning; otherwise it
runs the entry loop.  Returns the number of iterations carried out and all
dispatched names in order. -/
def runIters : List (Except GoError (List DirEntry)) → List String → ℕ × List String
  | [], _ => (0, [])
  | .error _ :: rest, processed =>
    let r := runIters rest processed
    (r.1 + 1, r.2)
  | .ok entries :: rest, processed =>
    let s := scanStep entries processed
    let r := runIters rest s.1
    (r.1 + 1, s.2 ++ r.2)

/-- `AnalyzeDirectory` (main.go:124-180): validate the reference image; on
failure log and return without a single scan; otherwise run the scanning loop
starting from an empty processed set. -/
def AnalyzeDirectory (fs : FileSystem) (referenceImagePath : String)
    (iters : List (Except GoError (List DirEntry))) : ℕ × List String :=
  match ValidateImage fs referenceImagePath with
  | .error _ => (0, [])
  | .ok _ => runIters iters []

/-! ## Lemmas about fields and line splitting -/

theorem fieldsAux_no_whitespace (s : List Char) :
    ∀ acc, (∀ c ∈ acc, c.isWhitespace = false) →
      ∀ w ∈ fieldsAux s acc, ∀ c ∈ w, c.isWhitespace = false := by
  induction s with
  | nil =>
    intro acc hacc w hw c hc
    unfold fieldsAux at hw
    by_cases hne : acc = ([] : List Char)
    · simp [hne] at hw
    · simp [hne] at hw
      subst hw
      exact hacc c (List.mem_reverse.mp hc)
  | cons a rest ih =>
    intro acc hacc w hw c hc
    unfold fieldsAux at hw
    by_cases hws : a.isWhitespace
    · simp [hws] at hw
      by_cases hne : acc = ([] : List Char)
      · simp [hne] at hw
        exact ih [] (by simp) w hw c hc
      · simp [hne] at hw
        rcases hw with hw | hw
        · subst hw
          exact hacc c (List.mem_reverse.mp hc)
        · exact ih [] (by simp) w hw c hc
    · simp [hws] at hw
      refine ih (a :: acc) ?_ w hw c hc
      intro d hd
      rcases List.mem_cons.mp hd with hd | hd
      · subst hd; exact Bool.eq_false_iff.mpr hws
      · exact hacc d hd

theorem goFields_no_whitespace (s : List Char) :
    ∀ w ∈ goFields s, ∀ c ∈ w, c.isWhitespace = false :=
  fieldsAux_no_whitespace s [] (by simp)

theorem getLastD_mem : ∀ (l : List α) (d : α), l ≠ [] → l.getLastD d ∈ l
  | [], _, h => absurd rfl h
  | [a], _, _ => by simp
  | a :: b :: rest, d, _ => by
    have := getLastD_mem (b :: rest) a (by simp)
    simp only [List.getLastD_cons] at this ⊢
    exact List.mem_cons_of_mem a this

theorem splitNL_no_newline (s : List Char) (h : ∀ c ∈ s, c ≠ '\n') :
    splitNL s = [s] := by
  induction s with
  | nil => rfl
  | cons a rest ih =>
    have ha : a ≠ '\n' := h a (List.mem_cons_self a rest)
    have hrest : splitNL rest = [rest] :=
      ih fun c hc => h c (List.mem_cons_of_mem a hc)
    unfold splitNL
    simp [ha, hrest]

/-- The word returned by the extraction step contains no whitespace, in
particular no newline. -/
theorem extract_no_newline (text : List Char) :
    ∀ c ∈ ExtractTextWithEnglishAndNumbers text, c ≠ '\n' := by
  intro c hc
  unfold ExtractTextWithEnglishAndNumbers at hc
  by_cases hlen : 3 < (goFields text).length
  · simp only [hlen, if_true] at hc
    have hne : goFields text ≠ [] := by
      intro h0
      rw [h0] at hlen
      simp at hlen
    have hmem : (goFields text).getLastD [] ∈ goFields text :=
      getLastD_mem _ _ hne
    have hws := goFields_no_whitespace text _ hmem c hc
    intro heq
    rw [heq] at hws
    simp [Char.isWhitespace] at hws
  · simp only [hlen, if_false] at hc
    simp at hc

/-! ## The claims -/

/-- C1.  The spec's parsing rule applied to the raw OCR text
`"HEADER\nABCDEFG12345\nFOOTER"` would emit the 12-character second line
`"ABCDEFG12345"`; the code instead applies the line rule to the output of
`ExtractTextWithEnglishAndNumbers`, which for this text is the empty string,
so nothing is emitted.  This theorem evaluates both sides at that input,
exhibiting the divergence between the claimed and the actual behaviour. -/
theorem extraction_drops_second_line_of_raw_text :
    emittedCode ("HEADER\nABCDEFG12345\nFOOTER".data) = some ("ABCDEFG12345".data)
    ∧ ExtractTextWithEnglishAndNumbers ("HEADER\nABCDEFG12345\nFOOTER".data) = []
    ∧ emittedCode (ExtractTextWithEnglishAndNumbers
        ("HEADER\nABCDEFG12345\nFOOTER".data)) = none := by
  refine ⟨by decide, by decide, by decide⟩

/-- C2.  For every raw OCR text, `ExtractTextWithEnglishAndNumbers` returns
either the empty string (at most three words) or the last whitespace-separated
word; the result never contains a newline, splitting it on `"\n"` yields
exactly one line, and therefore the emission condition of `AnalyzeDirectory`
(at least two lines with a 12-character second line) never fires: the watcher
never emits any code. -/
theorem extracted_text_never_emits (text : List Char) :
    (ExtractTextWithEnglishAndNumbers text = []
      ∨ (3 < (goFields text).length
          ∧ ExtractTextWithEnglishAndNumbers text = (goFields text).getLastD []))
    ∧ '\n' ∉ ExtractTextWithEnglishAndNumbers text
    ∧ (splitNL (ExtractTextWithEnglishAndNumbers text)).length = 1
    ∧ emittedCode (ExtractTextWithEnglishAndNumbers text) = none := by
  have hnl : ∀ c ∈ ExtractTextWithEnglishAndNumbers text, c ≠ '\n' :=
    extract_no_newline text
  have hsplit : splitNL (ExtractTextWithEnglishAndNumbers text)
      = [ExtractTextWithEnglishAndNumbers text] :=
    splitNL_no_newline _ hnl
  refine ⟨?_, ?_, ?_, ?_⟩
  · unfold ExtractTextWithEnglishAndNumbers
    by_cases hlen : 3 < (goFields text).length
    · exact Or.inr ⟨hlen, by simp [hlen]⟩
    · exact Or.inl (by simp [hlen])
  · intro hmem
    exact hnl '\n' hmem rfl
  · rw [hsplit]; rfl
  · unfold emittedCode
    rw [hsplit]
    rfl

/-- C3.  An image compared with itself does not score ≈ 1.0: for the
one-pixel grayscale image with value 255, `SSIM` returns
`104063409 / 26033409 ≈ 3.997`, strictly greater than 3 and not 1.  The
luminance term is 1, but the contrast term degenerates to
`(2*sumC + C2) / (sumS + C2)` with `sumC = 2*sumS`, which approaches 4, not
1, as the pixel values grow. -/
theorem ssim_identical_not_one :
    3 < SSIM [255] [255] ∧ SSIM [255] [255] ≠ 1
    ∧ SSIM [255] [255] = 104063409 / 26033409 := by
  refine ⟨?_, ?_, ?_⟩ <;> norm_num [SSIM, ssimC1, ssimC2]

/-- C4.  The stabilizing constants of `SSIM` are `(0.01·255)² = 6.5025` and
`(0.03·255)² = 58.5225` exactly as claimed, but the produced value does not
lie in `[0,1]`: already for the identical one-pixel images with value 1 the
result is `25009 / 23809 ≈ 1.05 > 1`, so 1.0 is not attained at identical
images. -/
theorem ssim_constants_but_out_of_range :
    ssimC1 = ((1 / 100 : ℚ) * 255) ^ 2
    ∧ ssimC2 = ((3 / 100 : ℚ) * 255) ^ 2
    ∧ 1 < SSIM [1] [1]
    ∧ SSIM [1] [1] = 25009 / 23809 := by
  refine ⟨by norm_num [ssimC1], by norm_num [ssimC2], ?_, ?_⟩ <;>
    norm_num [SSIM, ssimC1, ssimC2]

/-- C5.  The OCR step runs exactly when `CompareImages` succeeded with a
similarity strictly greater than 0.8; in particular a file scoring 0.75 never
reaches the Text Extractor. -/
theorem ocr_gated_by_threshold :
    (∀ (cr : Except GoError ℚ) (ocr : Except GoError (List Char)),
      (processFile cr ocr).2 = true ↔ ∃ s, cr = .ok s ∧ (8 : ℚ) / 10 < s)
    ∧ ∀ ocr, (processFile (.ok (75 / 100)) ocr).2 = false := by
  constructor
  · intro cr ocr
    match cr with
    | .error e => simp [processFile]
    | .ok s =>
      by_cases hs : (8 : ℚ) / 10 < s
      · match ocr with
        | .error e => simp [processFile, hs]
        | .ok text => simp [processFile, hs]
      · simp [processFile, hs]
  · intro ocr
    have : ¬ ((8 : ℚ) / 10 < 75 / 100) := by norm_num
    simp [processFile, this]

/-! ## Invariants of the scan loop -/

theorem mem_scanStep_processed (entries : List DirEntry) :
    ∀ processed name, name ∈ processed → name ∈ (scanStep entries processed).1 := by
  induction entries with
  | nil => intro p n h; simpa [scanStep] using h
  | cons e rest ih =>
    intro p n h
    simp only [scanStep]
    by_cases hd : e.isDir = true
    · simp only [hd, if_true]
      exact ih p n h
    · have hd' : e.isDir = false := by simpa using hd
      simp only [hd']
      by_cases hb : (p.contains e.name || !hasJpgSuffix e.name) = true
      · simp only [hb]
        exact ih p n h
      · have hb' : (p.contains e.name || !hasJpgSuffix e.name) = false := by
          cases hc : (p.contains e.name || !hasJpgSuffix e.name) with
          | false => rfl
          | true => exact absurd hc hb
        simp only [hb']
        exact ih (e.name :: p) n (List.mem_cons_of_mem _ h)

theorem mem_scanStep_dispatched (entries : List DirEntry) :
    ∀ processed name, name ∈ (scanStep entries processed).2 →
      name ∈ (scanStep entries processed).1 := by
  induction entries with
  | nil => intro p n h; simp [scanStep] at h
  | cons e rest ih =>
    intro p n h
    simp only [scanStep] at h ⊢
    by_cases hd : e.isDir = true
    · simp only [hd, if_true] at h ⊢
      exact ih p n h
    · have hd' : e.isDir = false := by simpa using hd
      simp only [hd', Bool.false_eq_true, if_false] at h ⊢
      by_cases hb : (p.contains e.name || !hasJpgSuffix e.name) = true
      · simp only [hb, if_true] at h ⊢
        exact ih p n h
      · have hb' : (p.contains e.name || !hasJpgSuffix e.name) = false := by
          cases hc : (p.contains e.name || !hasJpgSuffix e.name) with
          | false => rfl
          | true => exact absurd hc hb
        simp only [hb', Bool.false_eq_true, if_false, List.mem_cons] at h ⊢
        rcases h with h | h
        · subst h
          exact mem_scanStep_processed rest (e.name :: p) e.name
            (List.mem_cons_self e.name p)
        · exact ih (e.name :: p) n h

theorem scanStep_count (entries : List DirEntry) :
    ∀ processed name,
      ((scanStep entries processed).2).count name
        ≤ if name ∈ processed then 0 else 1 := by
  induction entries with
  | nil => intro p n; simp [scanStep]
  | cons e rest ih =>
    intro p n
    simp only [scanStep]
    by_cases hd : e.isDir = true
    · simp only [hd, if_true]
      exact ih p n
    · have hd' : e.isDir = false := by simpa using hd
      simp only [hd']
      by_cases hb : (p.contains e.name || !hasJpgSuffix e.name) = true
      · simp only [hb]
        exact ih p n
      · have hb' : (p.contains e.name || !hasJpgSuffix e.name) = false := by
          cases hc : (p.contains e.name || !hasJpgSuffix e.name) with
          | false => rfl
          | true => exact absurd hc hb
        have hnotmem : e.name ∉ p := by
          intro hmem
          have hc : p.contains e.name = true := by simpa using hmem
          rw [hc] at hb'
          simp at hb'
        have hcount := ih (e.name :: p) n
        simp only [hb', Bool.false_eq_true, if_false]
        by_cases hne : n = e.name
        · subst hne
          have hmem2 : e.name ∈ e.name :: p := List.mem_cons_self e.name p
          have h0 : ((scanStep rest (e.name :: p)).2).count e.name = 0 := by
            simpa [hmem2] using hcount
          simp [List.count_cons, h0, hnotmem]
        · have h1 : ((scanStep rest (e.name :: p)).2).count n
              ≤ if n ∈ p then 0 else 1 := by
            simpa [List.mem_cons, hne] using hcount
          have hne' : ¬ e.name = n := fun h => hne h.symm
          simpa [List.count_cons, hne'] using h1

theorem runIters_count (iters : List (Except GoError (List DirEntry))) :
    ∀ processed name,
      ((runIters iters processed).2).count name
        ≤ if name ∈ processed then 0 else 1 := by
  induction iters with
  | nil => intro p n; simp [runIters]
  | cons it rest ih =>
    intro p n
    cases it with
    | error e => simpa [runIters] using ih p n
    | ok entries =>
      simp only [runIters, List.count_append]
      by_cases hp : n ∈ p
      · have h1 : ((scanStep entries p).2).count n = 0 := by
          have := scanStep_count entries p n
          simpa [hp] using this
        have h2 : ((runIters rest (scanStep entries p).1).2).count n = 0 := by
          have hm := mem_scanStep_processed entries p n hp
          have := ih (scanStep entries p).1 n
          simpa [hm] using this
        simp [hp, h1, h2]
      · simp only [if_neg hp]
        by_cases hd : n ∈ (scanStep entries p).2
        · have hm : n ∈ (scanStep entries p).1 :=
            mem_scanStep_dispatched entries p n hd
          have h2 : ((runIters rest (scanStep entries p).1).2).count n = 0 := by
            have := ih (scanStep entries p).1 n
            simpa [hm] using this
          have h1 : ((scanStep entries p).2).count n ≤ 1 := by
            have := scanStep_count entries p n
            simpa [hp] using this
          omega
        · have h1 : ((scanStep entries p).2).count n = 0 :=
            List.count_eq_zero.mpr hd
          have h2 : ((runIters rest (scanStep entries p).1).2).count n ≤ 1 := by
            have := ih (scanStep entries p).1 n
            by_cases hm : n ∈ (scanStep entries p).1
            · simp [hm] at this
              omega
            · simpa [hm] using this
          omega

theorem runIters_length (iters : List (Except GoError (List DirEntry))) :
    ∀ processed, (runIters iters processed).1 = iters.length := by
  induction iters with
  | nil => intro p; rfl
  | cons it rest ih =>
    intro p
    cases it with
    | error e => simp [runIters, ih]
    | ok entries => simp [runIters, ih]

/-- C6.  Across any sequence of scan iterations (with arbitrary listings and
listing errors), a filename is dispatched at most once for the life of the
watcher: the name is recorded in the processed set before dispatch, so every
later occurrence of the same name — in the same iteration or any later one —
is skipped. -/
theorem filename_dispatched_at_most_once
    (iters : List (Except GoError (List DirEntry))) (name : String) :
    ((runIters iters []).2).count name ≤ 1 := by
  have h := runIters_count iters [] name
  simpa using h

/-- C9.  Any burst of directory-listing errors contributes no dispatched
tasks, still counts as iterations of the loop, and leaves the dispatches of
all later iterations exactly as they would have been: a listing error never
terminates the loop nor prevents later scans. -/
theorem listing_errors_are_skipped (errs : List GoError)
    (rest : List (Except GoError (List DirEntry))) (processed : List String) :
    (runIters (errs.map Except.error ++ rest) processed).2
        = (runIters rest processed).2
    ∧ (runIters (errs.map Except.error ++ rest) processed).1
        = errs.length + (runIters rest processed).1 := by
  induction errs with
  | nil => simp
  | cons e es ih =>
    have hstep : runIters ((e :: es).map Except.error ++ rest) processed
        = ((runIters (es.map Except.error ++ rest) processed).1 + 1,
           (runIters (es.map Except.error ++ rest) processed).2) := rfl
    have h2 := ih.2
    constructor
    · rw [hstep]
      exact ih.1
    · rw [hstep]
      simp only [List.length_cons]
      omega

theorem scanStep_dispatched_eq (entries : List DirEntry) :
    ∀ processed, (entries.map DirEntry.name).Nodup →
      (scanStep entries processed).2
        = (entries.filter (isCandidate processed)).map DirEntry.name := by
  induction entries with
  | nil => intro p _; simp [scanStep]
  | cons e rest ih =>
    intro p h
    simp only [List.map_cons, List.nodup_cons] at h
    obtain ⟨hnotin, hnodup⟩ := h
    simp only [scanStep]
    by_cases hd : e.isDir = true
    · simp only [hd, if_true]
      rw [ih p hnodup]
      have hcand : isCandidate p e = false := by
        simp only [isCandidate, hd, Bool.not_true, Bool.false_and]
      simp [List.filter_cons, hcand]
    · have hd' : e.isDir = false := by simpa using hd
      simp only [hd', Bool.false_eq_true, if_false]
      by_cases hb : (p.contains e.name || !hasJpgSuffix e.name) = true
      · simp only [hb, if_true]
        rw [ih p hnodup]
        have hcand : isCandidate p e = false := by
          simp only [isCandidate, hb, Bool.not_true, Bool.and_false]
        simp [List.filter_cons, hcand]
      · have hb' : (p.contains e.name || !hasJpgSuffix e.name) = false := by
          cases hc : (p.contains e.name || !hasJpgSuffix e.name) with
          | false => rfl
          | true => exact absurd hc hb
        simp only [hb', Bool.false_eq_true, if_false]
        have hcand : isCandidate p e = true := by
          simp only [isCandidate, hd', hb', Bool.not_false, Bool.and_true]
        have hfilter : rest.filter (isCandidate (e.name :: p))
            = rest.filter (isCandidate p) := by
          apply List.filter_congr
          intro x hx
          have hxname : x.name ≠ e.name := by
            intro heq
            exact hnotin (heq ▸ List.mem_map_of_mem DirEntry.name hx)
          simp [isCandidate, List.contains_cons, hxname]
        rw [ih (e.name :: p) hnodup, hfilter]
        simp [List.filter_cons, hcand]

/-- C7.  An entry is claimed and dispatched exactly when it is not a
directory, its lowercased name ends in `.jpg`, and it is not in the processed
set; over a listing with distinct names, the dispatched files are exactly the
entries satisfying that predicate, in order. -/
theorem candidates_are_new_jpg_files (entries : List DirEntry)
    (processed : List String)
    (h : (entries.map DirEntry.name).Nodup) :
    (∀ e : DirEntry, isCandidate processed e = true
        ↔ e.isDir = false ∧ hasJpgSuffix e.name = true
            ∧ processed.contains e.name = false)
    ∧ (scanStep entries processed).2
        = (entries.filter (isCandidate processed)).map DirEntry.name := by
  constructor
  · intro e
    cases hdir : e.isDir <;> cases hsuf : hasJpgSuffix e.name <;>
      cases hcont : processed.contains e.name <;>
        simp only [isCandidate, hdir, hsuf, hcont] <;> decide
  · exact scanStep_dispatched_eq entries processed h

/-- Witness for C7 at the directory `a.jpg`, `b.JPG`, `c.png`: exactly
`a.jpg` and `b.JPG` are dispatched. -/
theorem candidates_are_new_jpg_files_witness :
    ((([⟨"a.jpg", false⟩, ⟨"b.JPG", false⟩, ⟨"c.png", false⟩] :
        List DirEntry).map DirEntry.name).Nodup)
    ∧ (scanStep [⟨"a.jpg", false⟩, ⟨"b.JPG", false⟩, ⟨"c.png", false⟩] []).2
        = ["a.jpg", "b.JPG"] := by
  refine ⟨by decide, ?_⟩
  rw [(candidates_are_new_jpg_files
      [⟨"a.jpg", false⟩, ⟨"b.JPG", false⟩, ⟨"c.png", false⟩] [] (by decide)).2]
  decide

/-- C8.  When the reference image fails to validate, `AnalyzeDirectory`
returns before the loop: zero iterations, nothing dispatched.  When it
validates, the loop runs perpetually: every provided iteration is carried
out. -/
theorem reference_failure_stops_before_scanning (fs : FileSystem)
    (referenceImagePath : String)
    (iters : List (Except GoError (List DirEntry))) :
    ((∃ e, ValidateImage fs referenceImagePath = .error e) →
      AnalyzeDirectory fs referenceImagePath iters = (0, []))
    ∧ (∀ img, ValidateImage fs referenceImagePath = .ok img →
      (AnalyzeDirectory fs referenceImagePath iters).1 = iters.length) := by
  constructor
  · rintro ⟨e, he⟩
    simp [AnalyzeDirectory, he]
  · intro img hok
    simp only [AnalyzeDirectory, hok]
    exact runIters_length iters []

/-- Witness for C8: a filesystem with no files at all performs zero scans; a
filesystem whose reference image decodes performs one iteration per loop
turn, listing errors included. -/
theorem reference_failure_stops_before_scanning_witness :
    AnalyzeDirectory ⟨fun _ => false, fun _ => none⟩ "img.jpg" [.ok []] = (0, [])
    ∧ (AnalyzeDirectory ⟨fun _ => true, fun _ => some []⟩ "img.jpg"
        [.ok [], .error (.other "read failed")]).1 = 2 := by
  constructor
  · exact (reference_failure_stops_before_scanning _ _ _).1
      ⟨.notFound "img.jpg", rfl⟩
  · exact (reference_failure_stops_before_scanning _ _ _).2 [] rfl

/-- C10.  `ValidateImage` distinguishes its two failure cases: the
`not found` error exactly when `os.Stat` reports the path missing, the
`unable to read` error exactly when the path exists but decoding yields an
empty `Mat`; on success it returns the decoded image. -/
theorem validateImage_error_cases (fs : FileSystem) (imagePath : String) :
    (ValidateImage fs imagePath = .error (.notFound imagePath)
        ↔ fs.statExists imagePath = false)
    ∧ (ValidateImage fs imagePath = .error (.unableToRead imagePath)
        ↔ fs.statExists imagePath = true ∧ fs.imread imagePath = none)
    ∧ ∀ img, ValidateImage fs imagePath = .ok img
        ↔ fs.statExists imagePath = true ∧ fs.imread imagePath = some img := by
  unfold ValidateImage
  by_cases hs : fs.statExists imagePath = false
  · simp [hs]
  · have hs' : fs.statExists imagePath = true := by
      cases h : fs.statExists imagePath
      · exact absurd h hs
      · rfl
    cases hr : fs.imread imagePath with
    | none => simp [hs', hr]
    | some img => simp [hs', hr]
